import Mathlib

/-!
Shallow embedding of `txt_maker.py`, a single-file crawler that fetches a
paginated web page, extracts body paragraphs, follows the "next page" link
and concatenates the text into one output file.

Modelling choices:
* Text is `List Char` (`Str`); Python string operations are transcribed as
  recursive functions on character lists.
* The parsed HTML document is a mutually inductive rose tree `Node` /
  `NodeList`; a document (the BeautifulSoup object) is a `NodeList` of roots.
* The network and the URL-joining library are external capabilities: the
  crawl step is parameterized by a fetch oracle `fetch : Str → Option NodeList`
  (`none` = timeout / connection error / non-2xx status / parse failure,
  lines 92-108 of the source) and by `uj : Str → Str → Str` standing for
  `urllib.parse.urljoin`.
* The file system is an association list from file names to contents; mode
  `'w'` truncates, mode `'a'` appends (creating the file when absent).
-/

/-- Character-list model of a Python `str`. -/
abbrev Str := List Char

/-- Whitespace as recognised by Python's `str.strip` / `re`'s `\s` for the
characters that can occur here (ASCII whitespace and the non-breaking space
`\xa0`, which Python treats as whitespace). -/
def pyIsSpace (c : Char) : Bool :=
  c = ' ' || c = '\t' || c = '\n' || c = '\r' || c = '\x0b' || c = '\x0c' || c = '\xa0'

/-- Python `s.strip()`: drop whitespace from both ends (line 16 / 42 of the source). -/
def strip (s : Str) : Str :=
  ((s.dropWhile pyIsSpace).reverse.dropWhile pyIsSpace).reverse

/-- Scanner for `re.sub(r'\s+', '_', s)`: `inRun` records whether the previous
character was whitespace, so that a maximal whitespace run emits exactly one
underscore, at its first character. -/
def collapseAux (inRun : Bool) : Str → Str
  | [] => []
  | c :: rest =>
    if pyIsSpace c then
      (if inRun then [] else ['_']) ++ collapseAux true rest
    else c :: collapseAux false rest

/-- Python `re.sub(r'\s+', '_', s)` (line 17): each maximal run of whitespace
becomes a single underscore. -/
def collapseWs (s : Str) : Str := collapseAux false s

/-- The characters removed by `re.sub(r'[\\/*?:"<>|]', '', s)` (line 18). -/
def badChar (c : Char) : Bool :=
  c = '\\' || c = '/' || c = '*' || c = '?' || c = ':' || c = '\"' ||
  c = '<' || c = '>' || c = '|'

/-- Python `s.strip('.')`: drop `'.'` from both ends (used on line 20). -/
def stripDots (s : Str) : Str :=
  ((s.dropWhile (· = '.')).reverse.dropWhile (· = '.')).reverse

/-- `sanitize_filename` (lines 7-22): fallback `"untitled"` on falsy input,
strip, collapse whitespace runs to `_`, delete forbidden characters, truncate
to 200 characters, and fall back again when the result is empty, all dots, or
case-insensitively `"untitled"`. -/
def sanitize_filename (filename : Str) : Str :=
  if filename = [] then "untitled".data
  else
    let f1 := strip filename
    let f2 := collapseWs f1
    let f3 := f2.filter (fun c => !badChar c)
    let f4 := f3.take 200
    if f4 = [] ∨ stripDots f4 = [] ∨ f4.map Char.toLower = "untitled".data then
      "untitled".data
    else f4


/-! ## The parsed document tree (BeautifulSoup's node tree) -/

mutual
/-- A node of the parsed document: a text node, or an element with a tag,
an attribute list (attribute name to value) and children. -/
inductive Node where
  | text (s : Str)
  | elem (tag : String) (attrs : List (String × Str)) (children : NodeList)
  deriving DecidableEq

/-- A sequence of sibling nodes. A whole document (the soup) is a `NodeList`
of root nodes. -/
inductive NodeList where
  | nil
  | cons (n : Node) (rest : NodeList)
  deriving DecidableEq
end

/-- The sibling sequence as a plain list (used in specification statements). -/
def NodeList.toList : NodeList → List Node
  | .nil => []
  | .cons n rest => n :: rest.toList

/-- Look up an attribute by name: `tag.get(name)` / `tag['name']`. -/
def lookupAttr (attrs : List (String × Str)) (name : String) : Option Str :=
  match attrs.find? (fun a => a.1 = name) with
  | none => none
  | some a => some a.2

/-- `tag.has_attr(name)` (line 62). -/
def hasAttr (attrs : List (String × Str)) (name : String) : Bool :=
  (lookupAttr attrs name).isSome

/-- Split a `class` attribute value into class names (whitespace-separated),
as BeautifulSoup does for multi-valued attributes. -/
def splitWsAux (cur : Str) : Str → List Str
  | [] => if cur = [] then [] else [cur.reverse]
  | c :: rest =>
    if pyIsSpace c then
      if cur = [] then splitWsAux [] rest
      else cur.reverse :: splitWsAux [] rest
    else splitWsAux (c :: cur) rest

/-- Whitespace-split of an attribute value. -/
def splitWs (s : Str) : List Str := splitWsAux [] s

/-- The class names of an element; absent attribute means no classes. -/
def classList (attrs : List (String × Str)) : List Str :=
  match lookupAttr attrs "class" with
  | none => []
  | some v => splitWs v

/-- BeautifulSoup's `class_=c` matcher: `c` is among the element's classes. -/
def hasClass (attrs : List (String × Str)) (c : Str) : Bool :=
  (classList attrs).contains c

mutual
/-- `tag.get_text()`: concatenation of all descendant text-node strings in
document order (line 33). -/
def getText : Node → Str
  | .text s => s
  | .elem _ _ children => getTextL children

/-- `get_text` over a sibling sequence. -/
def getTextL : NodeList → Str
  | .nil => []
  | .cons n rest => getText n ++ getTextL rest
end

mutual
/-- `tag.get_text(strip=True)` (line 73): each text fragment is stripped of
surrounding whitespace before concatenation. -/
def getTextStrip : Node → Str
  | .text s => strip s
  | .elem _ _ children => getTextStripL children

/-- `get_text(strip=True)` over a sibling sequence. -/
def getTextStripL : NodeList → Str
  | .nil => []
  | .cons n rest => getTextStrip n ++ getTextStripL rest
end


/-! ## Finding elements (`soup.find(...)`) -/

/-- Does an element match `soup.find('span', class_='title')` (line 30)? -/
def isTitleSpan (tag : String) (attrs : List (String × Str)) : Bool :=
  tag = "span" && hasClass attrs "title".data

/-- Does an element match `soup.find('a', id='pt_next', class_='Readpage_up')`
(line 144)?  `id` is single-valued and compared for equality; `class` is
multi-valued and matched by inclusion. -/
def isNextLink (tag : String) (attrs : List (String × Str)) : Bool :=
  tag = "a" && lookupAttr attrs "id" = some "pt_next".data &&
    hasClass attrs "Readpage_up".data

mutual
/-- First element (in document pre-order) satisfying a tag/attribute
predicate, starting at a node. -/
def findElem (p : String → List (String × Str) → Bool) : Node → Option Node
  | .text _ => none
  | .elem tag attrs children =>
    if p tag attrs then some (.elem tag attrs children)
    else findElemL p children

/-- First matching element under a sibling sequence. -/
def findElemL (p : String → List (String × Str) → Bool) : NodeList → Option Node
  | .nil => none
  | .cons n rest =>
    match findElem p n with
    | some e => some e
    | none => findElemL p rest
end

/-! ## Title extraction -/

/-- The title separator `'\xa0\xa0'` (line 36): two consecutive non-breaking
spaces. -/
def titleSep : Str := ['\xa0', '\xa0']

/-- Python's `sep in s` / `s.split(sep, 1)`: locate the first occurrence of
`sep` in `s`; `some (a, b)` means `s = a ++ sep ++ b` with `a` shortest.
`none` means `sep` does not occur. -/
def splitFirst (sep : Str) : Str → Option (Str × Str)
  | [] => if sep.isPrefixOf ([] : Str) then some ([], []) else none
  | c :: rest =>
    if sep.isPrefixOf (c :: rest) then some ([], (c :: rest).drop sep.length)
    else
      match splitFirst sep rest with
      | none => none
      | some pr => some (c :: pr.1, pr.2)

/-- `extract_title_for_filename` (lines 24-53): find the first
`<span class="title">`; if its text contains `'\xa0\xa0'`, the candidate is
the stripped text after the first occurrence; empty candidate, missing
separator or missing span all fall back to `"untitled"`; the result is
sanitized. -/
def extract_title_for_filename (soup : NodeList) : Str :=
  let output_filename_base :=
    match findElemL isTitleSpan soup with
    | none => "untitled".data
    | some title_span =>
      let raw_title_text := getText title_span
      match splitFirst titleSep raw_title_text with
      | none => "untitled".data
      | some pr =>
        let cleaned_candidate := strip pr.2
        if cleaned_candidate = [] then "untitled".data else cleaned_candidate
  sanitize_filename output_filename_base

/-! ## Paragraph extraction -/

/-- The ancestor tags that disqualify a paragraph (line 67). -/
def excludedTags : List String := ["header", "footer", "nav", "aside"]

mutual
/-- `extract_relevant_paragraphs` (lines 55-76) fused with the traversal of
`soup.find_all('p')`: walk the tree in document pre-order carrying the list
of ancestor tag names; at each `<p>`, apply the three `continue` filters of
the source (has a `class` attribute; some ancestor tag is excluded; stripped
text empty) and collect the text otherwise. -/
def collectPs (ancestorTags : List String) : Node → List Str
  | .text _ => []
  | .elem tag attrs children =>
    let deeper := collectPsL (tag :: ancestorTags) children
    if tag = "p" then
      if hasAttr attrs "class" then deeper
      else if ancestorTags.any (fun t => excludedTags.contains t) then deeper
      else
        let text := getTextStripL children
        if text = [] then deeper else text :: deeper
    else deeper

/-- `collectPs` over a sibling sequence. -/
def collectPsL (ancestorTags : List String) : NodeList → List Str
  | .nil => []
  | .cons n rest => collectPs ancestorTags n ++ collectPsL ancestorTags rest
end

/-- `extract_relevant_paragraphs(soup)`: the document has no enclosing
element, so the ancestor list starts empty. -/
def extract_relevant_paragraphs (soup : NodeList) : List Str :=
  collectPsL [] soup

/-! ## Pagination resolution -/

/-- Python `s.lower()` on the characters in scope. -/
def lowerStr (s : Str) : Str := s.map Char.toLower

/-- The end-of-series sentinel href (line 161). -/
def sentinelHref : Str := "javascript:void(0);".data

/-- The attributes of a node (a text node has none). -/
def nodeAttrs : Node → List (String × Str)
  | .text _ => []
  | .elem _ attrs _ => attrs

/-- Lines 144-164 of the source: locate the next-page anchor, read and trim
its `href`, and return it unless the anchor is missing, the href is missing
or blank, or the trimmed href is (case-insensitively) the sentinel.  The
result is the trimmed href still to be resolved against the current URL. -/
def resolve_next_href (soup : NodeList) : Option Str :=
  match findElemL isNextLink soup with
  | none => none
  | some next_page_link_tag =>
    match lookupAttr (nodeAttrs next_page_link_tag) "href" with
    | none => none
    | some next_href =>
      if next_href = [] ∨ strip next_href = [] then none
      else
        let trimmed := strip next_href
        if lowerStr trimmed = sentinelHref then none
        else some trimmed

/-! ## The crawl loop -/

/-- Python file-open mode: `'w'` (truncate/create) or `'a'` (append/create). -/
inductive FileMode where
  | w
  | a
  deriving DecidableEq

/-- The paragraph loop of lines 127-130: write each paragraph, and after every
paragraph except the last a two-newline separator. -/
def writeParas : List Str → Str
  | [] => []
  | [t] => t
  | t :: rest => t ++ "\n\n".data ++ writeParas rest

/-- Everything written inside the `with open` block (lines 123-130): in append
mode with a nonempty paragraph list, a leading two-newline separator; then the
separated paragraphs. -/
def pageText (mode : FileMode) (paragraphs : List Str) : Str :=
  (if mode = .a ∧ paragraphs ≠ [] then "\n\n".data else []) ++ writeParas paragraphs

/-- File-system model: an association list from file names to contents. -/
abbrev FileSys := List (Str × Str)

/-- Content of a file, when it exists. -/
def fsRead (fs : FileSys) (name : Str) : Option Str :=
  match fs.find? (fun f => f.1 = name) with
  | none => none
  | some f => some f.2

/-- Replace or create a file. -/
def fsSet (fs : FileSys) (name : Str) (content : Str) : FileSys :=
  match fs with
  | [] => [(name, content)]
  | f :: rest =>
    if f.1 = name then (name, content) :: rest else f :: fsSet rest name content

/-- `open(name, mode)` followed by the writes of `content`: mode `'w'`
truncates, mode `'a'` appends to the existing content (creating the file when
it does not exist). -/
def fsWrite (fs : FileSys) (name : Str) (mode : FileMode) (content : Str) : FileSys :=
  match mode with
  | .w => fsSet fs name content
  | .a => fsSet fs name ((fsRead fs name).getD [] ++ content)

/-- The mutable state of `crawl_and_save_all_pages` (lines 82-84) together
with the observable file system. -/
structure CrawlState where
  currentUrl : Option Str
  outputFilename : Option Str
  firstPageProcessed : Bool
  files : FileSys
  deriving DecidableEq

/-- The state at entry of `crawl_and_save_all_pages(initial_url)`. -/
def initialState (initial_url : Str) (fs : FileSys) : CrawlState :=
  { currentUrl := some initial_url
    outputFilename := none
    firstPageProcessed := false
    files := fs }

/-- One iteration of the `while current_url` loop (lines 86-176), parameterized
by the URL joiner `uj` (`urllib.parse.urljoin`) and the fetch oracle `fetch`
(lines 92-95; `none` abstracts a timeout, a connection error, a non-2xx status
or a parse failure, all of which set `current_url = None`, lines 97-108).
Writes to the file are assumed to succeed (the `IOError` path is out of
scope). When `currentUrl` is `none` the loop has exited and the state is
unchanged. -/
def crawlStep (uj : Str → Str → Str) (fetch : Str → Option NodeList)
    (s : CrawlState) : CrawlState :=
  match s.currentUrl with
  | none => s
  | some current_url =>
    match fetch current_url with
    | none => { s with currentUrl := none }
    | some soup =>
      let output_filename :=
        match s.firstPageProcessed with
        | false => some (extract_title_for_filename soup ++ ".txt".data)
        | true => s.outputFilename
      let file_mode :=
        match s.firstPageProcessed with
        | false => FileMode.w
        | true => FileMode.a
      let paragraphs := extract_relevant_paragraphs soup
      let files :=
        if paragraphs ≠ [] ∨ file_mode = .w then
          fsWrite s.files (output_filename.getD []) file_mode
            (pageText file_mode paragraphs)
        else s.files
      let next :=
        match resolve_next_href soup with
        | none => none
        | some next_href =>
          let new_url := uj current_url next_href
          if new_url = current_url then none else some new_url
      { currentUrl := next
        outputFilename := output_filename
        firstPageProcessed := true
        files := files }

/-- `n` iterations of the loop. -/
def crawlRun (uj : Str → Str → Str) (fetch : Str → Option NodeList)
    (s : CrawlState) : Nat → CrawlState
  | 0 => s
  | n + 1 => crawlRun uj fetch (crawlStep uj fetch s) n

/-! ## Specification-side characterization of paragraph extraction (§4.3) -/

mutual
/-- Every `<p>` element of a node in document (pre-order) order, each paired
with the tags of its ancestors (innermost first). -/
def allPs (ancestorTags : List String) : Node → List (Node × List String)
  | .text _ => []
  | .elem tag attrs children =>
    (if tag = "p" then [(Node.elem tag attrs children, ancestorTags)] else [])
      ++ allPsL (tag :: ancestorTags) children

/-- `allPs` over a sibling sequence. -/
def allPsL (ancestorTags : List String) : NodeList → List (Node × List String)
  | .nil => []
  | .cons n rest => allPs ancestorTags n ++ allPsL ancestorTags rest
end

/-- Spec §4.3 filter: keep a paragraph that carries no `class` attribute, has
no ancestor tagged header/footer/nav/aside, and whose stripped text is
non-empty. -/
def pQualifies (pa : Node × List String) : Bool :=
  !hasAttr (nodeAttrs pa.1) "class" &&
    !pa.2.any (fun t => excludedTags.contains t) &&
    !(getTextStrip pa.1).isEmpty

/-- Spec §4.3 as a two-pass pipeline: list all paragraph elements in document
order, filter by `pQualifies`, and take their stripped texts. -/
def spec_paragraphs (soup : NodeList) : List Str :=
  ((allPsL [] soup).filter pQualifies).map (fun pa => getTextStrip pa.1)


/-! ## Occurrence of an element in a document -/

/-- Does a node satisfy a tag/attribute matcher (text nodes never match)? -/
def matchesNode (p : String → List (String × Str) → Bool) : Node → Bool
  | .text _ => false
  | .elem tag attrs _ => p tag attrs

/-- Children of a node (a text node has none). -/
def nodeChildren : Node → NodeList
  | .text _ => .nil
  | .elem _ _ children => children

/-- `InTree el n`: `el` occurs in the tree rooted at `n` (as `n` itself or at
any depth below it). -/
inductive InTree : Node → Node → Prop where
  | here (n : Node) : InTree n n
  | child {el c root : Node} (hc : c ∈ (nodeChildren root).toList)
      (h : InTree el c) : InTree el root

/-- `el` occurs somewhere in the document. -/
def InDoc (el : Node) (soup : NodeList) : Prop :=
  ∃ r ∈ soup.toList, InTree el r

/-- Lines 144-166 packaged as spec §4.4's resolver without the loop guard:
the candidate next URL, obtained by resolving the trimmed href of the
next-page anchor against the current page URL. -/
def resolve_candidate (uj : Str → Str → Str) (soup : NodeList)
    (current_url : Str) : Option Str :=
  (resolve_next_href soup).map (uj current_url)

/-- Content of a file, the empty string when the file does not exist (append
mode creates missing files, so the two are indistinguishable to the writer). -/
def fileContent (fs : FileSys) (name : Str) : Str :=
  (fsRead fs name).getD []

/-! ## Concrete fixtures used by the witness theorems -/

/-- A next-page anchor as the source site produces it. -/
def nextAnchor (href : String) : Node :=
  .elem "a" [("id", "pt_next".data), ("class", "Readpage_up".data),
    ("href", href.data)] .nil

/-- A bare paragraph with one text child. -/
def paraNode (t : String) : Node :=
  .elem "p" [] (.cons (.text t.data) .nil)

/-- A `<span class="title">` with one text child. -/
def titleSpanNode (t : String) : Node :=
  .elem "span" [("class", "title".data)] (.cons (.text t.data) .nil)

/-- A URL joiner standing in for `urljoin` in witnesses: returns the href. -/
def ujW : Str → Str → Str := fun _ rel => rel

/-- Witness document: a title span, one paragraph, a next-page anchor. -/
def docW : NodeList :=
  .cons (titleSpanNode "Chapter\xa0\xa0My Title")
    (.cons (paraNode "Hello") (.cons (nextAnchor "b.html") .nil))

/-- Witness document: two paragraphs, no next-page anchor. -/
def docW2 : NodeList :=
  .cons (paraNode "P1") (.cons (paraNode "P2") .nil)

/-- Witness fetch oracle serving `docW` at `a.html` only. -/
def fetchW : Str → Option NodeList :=
  fun u => if u = "a.html".data then some docW else none

/-- Witness fetch oracle serving `docW2` everywhere. -/
def fetchW2 : Str → Option NodeList := fun _ => some docW2

/-- Witness fetch oracle that always fails. -/
def fetchFail : Str → Option NodeList := fun _ => none

/-- Witness crawl state: past the first page, with existing output. -/
def stateW : CrawlState :=
  { currentUrl := some "b.html".data
    outputFilename := some "out.txt".data
    firstPageProcessed := true
    files := [("out.txt".data, "X".data)] }

/-- Witness crawl state: past an empty first page, output file created empty. -/
def stateW0 : CrawlState :=
  { currentUrl := some "b.html".data
    outputFilename := some "out.txt".data
    firstPageProcessed := true
    files := [("out.txt".data, [])] }

/-! ## Theorems -/

example : sanitize_filename "".data = "untitled".data := by decide
example : sanitize_filename "  My   Title ".data = "My_Title".data := by decide
example : sanitize_filename "a/b:c".data = "abc".data := by decide
example : sanitize_filename "///".data = "untitled".data := by decide
example : sanitize_filename "...".data = "untitled".data := by decide
example : sanitize_filename "UntItled".data = "untitled".data := by decide
example :
    getTextStrip (.elem "p" [] (.cons (.text " a ".data)
      (.cons (.elem "b" [] (.cons (.text " c".data) .nil)) .nil))) = "ac".data := by
  decide
mutual
/-- The fused extractor agrees with the filter/map pipeline on one node. -/
theorem collectPs_eq : ∀ (anc : List String) (n : Node),
    collectPs anc n = ((allPs anc n).filter pQualifies).map (fun pa => getTextStrip pa.1)
  | _, .text _ => by simp [collectPs, allPs]
  | anc, .elem tag attrs children => by
    have ih := collectPsL_eq (tag :: anc) children
    simp only [collectPs, allPs, ih]
    by_cases htag : tag = "p"
    · subst htag
      simp only [if_pos rfl, List.filter_append, List.map_append]
      by_cases hcls : hasAttr attrs "class"
      · simp [pQualifies, nodeAttrs, hcls]
      · by_cases hanc : ∃ x ∈ anc, x ∈ excludedTags
        · simp [pQualifies, nodeAttrs, hcls, hanc]
        · by_cases htxt : getTextStripL children = []
          · simp [pQualifies, nodeAttrs, hcls, hanc, getTextStrip, htxt]
          · have hanc' : ∀ x ∈ anc, x ∉ excludedTags := by
              intro x hx
              exact fun hmem => hanc ⟨x, hx, hmem⟩
            have hq : pQualifies (Node.elem "p" attrs children, anc) = true := by
              simp only [pQualifies, nodeAttrs, getTextStrip, Bool.and_eq_true,
                Bool.not_eq_true']
              refine ⟨⟨by simp [hcls], ?_⟩, by simp [List.isEmpty_iff, htxt]⟩
              simp only [List.any_eq_false]
              intro t ht
              simpa using hanc' t ht
            simp [hq, hcls, hanc, htxt, getTextStrip]
    · simp [htag]

/-- The fused extractor agrees with the filter/map pipeline on a sequence. -/
theorem collectPsL_eq : ∀ (anc : List String) (l : NodeList),
    collectPsL anc l = ((allPsL anc l).filter pQualifies).map (fun pa => getTextStrip pa.1)
  | _, .nil => by simp [collectPsL, allPsL]
  | anc, .cons n rest => by
    have ih1 := collectPs_eq anc n
    have ih2 := collectPsL_eq anc rest
    simp [collectPsL, allPsL, ih1, ih2]
end

/-- C1: for every parsed document, `extract_relevant_paragraphs` returns
exactly the stripped texts of the `<p>` elements that carry no `class`
attribute, have no header/footer/nav/aside ancestor at any depth, and have
non-empty stripped text, in document order. -/
theorem C1_paragraph_extractor (soup : NodeList) :
    extract_relevant_paragraphs soup = spec_paragraphs soup := by
  rw [extract_relevant_paragraphs, spec_paragraphs, collectPsL_eq]

mutual
/-- `findElem` returns `none` exactly when no node of the tree matches. -/
theorem findElem_none (p : String → List (String × Str) → Bool) :
    ∀ n : Node, (findElem p n = none ↔ ∀ el, InTree el n → matchesNode p el = false)
  | .text s => by
    constructor
    · intro _ el hel
      cases hel with
      | here => rfl
      | child hc _ => simp [nodeChildren, NodeList.toList] at hc
    · intro _
      rfl
  | .elem t a c => by
    have ihL := findElemL_none p c
    by_cases hp : p t a
    · constructor
      · intro hnone
        simp [findElem, hp] at hnone
      · intro hall
        have := hall (.elem t a c) (InTree.here _)
        simp [matchesNode, hp] at this
    · have huf : findElem p (.elem t a c) = findElemL p c := by
        simp [findElem, hp]
      rw [huf, ihL]
      constructor
      · intro hall el hel
        cases hel with
        | here => simpa [matchesNode] using hp
        | child hc h => exact hall el ⟨_, by simpa [nodeChildren] using hc, h⟩
      · intro hall el ⟨c', hc', h'⟩
        exact hall el (InTree.child (by simpa [nodeChildren] using hc') h')

/-- `findElemL` returns `none` exactly when no node under the sequence
matches. -/
theorem findElemL_none (p : String → List (String × Str) → Bool) :
    ∀ l : NodeList,
      (findElemL p l = none ↔ ∀ el, (∃ c ∈ l.toList, InTree el c) → matchesNode p el = false)
  | .nil => by simp [findElemL, NodeList.toList]
  | .cons n rest => by
    have ih1 := findElem_none p n
    have ih2 := findElemL_none p rest
    constructor
    · intro hnone
      have hsplit : findElem p n = none ∧ findElemL p rest = none := by
        cases hfe : findElem p n with
        | none =>
          refine ⟨rfl, ?_⟩
          simpa [findElemL, hfe] using hnone
        | some e => simp [findElemL, hfe] at hnone
      intro el ⟨c', hc', h'⟩
      simp only [NodeList.toList, List.mem_cons] at hc'
      cases hc' with
      | inl heq => exact (ih1.mp hsplit.1) el (heq ▸ h')
      | inr hmem => exact (ih2.mp hsplit.2) el ⟨c', hmem, h'⟩
    · intro hall
      have h1 : findElem p n = none :=
        ih1.mpr (fun el hel => hall el ⟨n, by simp [NodeList.toList], hel⟩)
      have h2 : findElemL p rest = none :=
        ih2.mpr (fun el ⟨c', hc', h'⟩ =>
          hall el ⟨c', by simp [NodeList.toList, hc'], h'⟩)
      simp [findElemL, h1, h2]
end

mutual
/-- What `findElem` returns occurs in the tree and matches. -/
theorem findElem_some (p : String → List (String × Str) → Bool) :
    ∀ (n el : Node), findElem p n = some el → InTree el n ∧ matchesNode p el = true
  | .text _, el => by simp [findElem]
  | .elem t a c, el => by
    by_cases hp : p t a
    · intro h
      simp only [findElem, if_pos hp, Option.some.injEq] at h
      subst h
      exact ⟨InTree.here _, by simpa [matchesNode] using hp⟩
    · intro h
      simp only [findElem, if_neg hp] at h
      obtain ⟨⟨c', hc', h'⟩, hm⟩ := findElemL_some p c el h
      exact ⟨InTree.child (by simpa [nodeChildren] using hc') h', hm⟩

/-- What `findElemL` returns occurs under the sequence and matches. -/
theorem findElemL_some (p : String → List (String × Str) → Bool) :
    ∀ (l : NodeList) (el : Node), findElemL p l = some el →
      (∃ c ∈ l.toList, InTree el c) ∧ matchesNode p el = true
  | .nil, el => by simp [findElemL]
  | .cons n rest, el => by
    intro h
    cases hfe : findElem p n with
    | some e =>
      rw [findElemL, hfe] at h
      cases h
      obtain ⟨ht, hm⟩ := findElem_some p n el hfe
      exact ⟨⟨n, by simp [NodeList.toList], ht⟩, hm⟩
    | none =>
      rw [findElemL, hfe] at h
      obtain ⟨⟨c', hc', h'⟩, hm⟩ := findElemL_some p rest el h
      exact ⟨⟨c', by simp [NodeList.toList, hc'], h'⟩, hm⟩
end

/-- C2: the pagination resolver yields no candidate next URL exactly when the
next-page anchor (`id = pt_next`, class including `Readpage_up`) is absent
from the document, or its `href` is absent or blank after trimming, or the
trimmed href is case-insensitively `javascript:void(0);`; in every other case
it returns the trimmed href resolved against the current URL. -/
theorem C2_pagination_resolver (uj : Str → Str → Str) (soup : NodeList)
    (current_url : Str) :
    (resolve_candidate uj soup current_url = none ↔
      ((∀ el, InDoc el soup → matchesNode isNextLink el = false) ∨
        ∃ el, findElemL isNextLink soup = some el ∧
          (lookupAttr (nodeAttrs el) "href" = none ∨
            ∃ href, lookupAttr (nodeAttrs el) "href" = some href ∧
              (strip href = [] ∨ lowerStr (strip href) = sentinelHref)))) ∧
    (∀ el href, findElemL isNextLink soup = some el →
      lookupAttr (nodeAttrs el) "href" = some href →
      strip href ≠ [] → lowerStr (strip href) ≠ sentinelHref →
      resolve_candidate uj soup current_url = some (uj current_url (strip href))) := by
  constructor
  · cases hf : findElemL isNextLink soup with
    | none =>
      have hres : resolve_candidate uj soup current_url = none := by
        simp [resolve_candidate, resolve_next_href, hf]
      rw [hres]
      exact ⟨fun _ => Or.inl fun el h => (findElemL_none isNextLink soup).mp hf el h,
        fun _ => rfl⟩
    | some el =>
      cases hh : lookupAttr (nodeAttrs el) "href" with
      | none =>
        have hres : resolve_candidate uj soup current_url = none := by
          simp [resolve_candidate, resolve_next_href, hf, hh]
        rw [hres]
        exact ⟨fun _ => Or.inr ⟨el, rfl, Or.inl hh⟩, fun _ => rfl⟩
      | some href =>
        by_cases hblank : strip href = []
        · have hres : resolve_candidate uj soup current_url = none := by
            simp only [resolve_candidate, resolve_next_href, hf, hh]
            rw [if_pos (Or.inr hblank)]
            rfl
          rw [hres]
          exact ⟨fun _ => Or.inr ⟨el, rfl, Or.inr ⟨href, hh, Or.inl hblank⟩⟩,
            fun _ => rfl⟩
        · have hne : ¬(href = [] ∨ strip href = []) := by
            rintro (h1 | h2)
            · exact hblank (by rw [h1]; rfl)
            · exact hblank h2
          by_cases hjs : lowerStr (strip href) = sentinelHref
          · have hres : resolve_candidate uj soup current_url = none := by
              simp only [resolve_candidate, resolve_next_href, hf, hh]
              rw [if_neg hne, if_pos hjs]
              rfl
            rw [hres]
            exact ⟨fun _ => Or.inr ⟨el, rfl, Or.inr ⟨href, hh, Or.inr hjs⟩⟩,
              fun _ => rfl⟩
          · have hval : resolve_candidate uj soup current_url =
                some (uj current_url (strip href)) := by
              simp only [resolve_candidate, resolve_next_href, hf, hh]
              rw [if_neg hne, if_neg hjs]
              rfl
            rw [hval]
            constructor
            · intro hcontr
              simp at hcontr
            · rintro (habs | ⟨el', hel', hrest⟩)
              · obtain ⟨hocc, hm⟩ := findElemL_some isNextLink soup el hf
                cases hm.symm.trans (habs el hocc)
              · injection hel' with heq
                subst heq
                rcases hrest with h1 | ⟨href', hh', h2⟩
                · rw [hh] at h1
                  exact Option.noConfusion h1
                · rw [hh] at hh'
                  injection hh' with heq2
                  subst heq2
                  rcases h2 with h2 | h2
                  · exact absurd h2 hblank
                  · exact absurd h2 hjs
  · intro el href hel hhref hb hs
    simp only [resolve_candidate, resolve_next_href, hel, hhref]
    rw [if_neg (not_or.mpr ⟨fun h1 => hb (by rw [h1]; rfl), hb⟩), if_neg hs]
    rfl

/-- Witness for C2 at a concrete document: the anchor's href `b.html` is
neither blank nor the sentinel, so the resolver returns it joined against the
current URL. -/
theorem C2_witness :
    resolve_candidate ujW docW "a.html".data = some (ujW "a.html".data "b.html".data) := by
  have h := (C2_pagination_resolver ujW docW "a.html".data).2
    (nextAnchor "b.html") "b.html".data (by decide) (by decide) (by decide) (by decide)
  exact h.trans (by decide)

/-- C3: whenever one loop iteration moves the cursor from `url` to `next`,
then `next` was obtained by resolving the resolver's trimmed href against
`url` with the URL joiner, and the loop guard guarantees `next ≠ url` — so
two consecutive iterations never fetch the same URL. -/
theorem C3_loop_guard (uj : Str → Str → Str) (fetch : Str → Option NodeList)
    (s : CrawlState) (url next : Str) :
    s.currentUrl = some url →
    (crawlStep uj fetch s).currentUrl = some next →
    next ≠ url ∧ ∃ soup href, fetch url = some soup ∧
      resolve_next_href soup = some href ∧ next = uj url href := by
  cases s with
  | mk cu of fp fs =>
    intro hcur hnext
    simp only at hcur
    subst hcur
    cases hfe : fetch url with
    | none => simp [crawlStep, hfe] at hnext
    | some soup =>
      simp only [crawlStep, hfe] at hnext
      cases hro : resolve_next_href soup with
      | none => simp [hro] at hnext
      | some href =>
        simp only [hro] at hnext
        by_cases hguard : uj url href = url
        · rw [if_pos hguard] at hnext
          cases hnext
        · rw [if_neg hguard] at hnext
          injection hnext with heq
          subst heq
          exact ⟨hguard, soup, href, rfl, hro, rfl⟩

/-- Witness for C3: a concrete step from `a.html` moves to `b.html`, which the
theorem certifies is distinct from `a.html` and produced by the URL joiner
from the resolved href. -/
theorem C3_witness :
    "b.html".data ≠ "a.html".data ∧ ∃ soup href, fetchW "a.html".data = some soup ∧
      resolve_next_href soup = some href ∧ "b.html".data = ujW "a.html".data href :=
  C3_loop_guard ujW fetchW (initialState "a.html".data []) "a.html".data "b.html".data
    rfl (by decide)

/-- The paragraph write loop equals the standard separator join: one
`"\n\n"` between consecutive paragraphs, none after the last. -/
theorem writeParas_intercalate : ∀ ps : List Str,
    writeParas ps = List.intercalate "\n\n".data ps
  | [] => by simp [writeParas, List.intercalate]
  | [t] => by simp [writeParas, List.intercalate]
  | t :: u :: rest => by
    have ih := writeParas_intercalate (u :: rest)
    rw [writeParas, ih]
    simp only [List.intercalate, List.intersperse]
    simp [List.append_assoc]
    intro h
    exact List.noConfusion h

/-- C4: on a page after the first, the writer appends a two-newline separator
followed by the paragraphs joined by two-newline separators (no trailing
separator) when the page has paragraphs, and touches nothing at all when the
page has none; within any page the paragraphs are joined by exactly one
two-newline separator. -/
theorem C4_page_writer (uj : Str → Str → Str) (fetch : Str → Option NodeList)
    (s : CrawlState) (url : Str) (soup : NodeList) :
    s.firstPageProcessed = true →
    s.currentUrl = some url →
    fetch url = some soup →
    (∀ qs : List Str, writeParas qs = List.intercalate "\n\n".data qs) ∧
    (extract_relevant_paragraphs soup = [] → (crawlStep uj fetch s).files = s.files) ∧
    (extract_relevant_paragraphs soup ≠ [] →
      (crawlStep uj fetch s).files =
        fsSet s.files (s.outputFilename.getD [])
          (fileContent s.files (s.outputFilename.getD []) ++
            ("\n\n".data ++ List.intercalate "\n\n".data
              (extract_relevant_paragraphs soup)))) := by
  cases s with
  | mk cu of fp fs =>
    intro hfp hcur hfe
    simp only at hfp hcur
    subst hfp
    subst hcur
    refine ⟨writeParas_intercalate, ?_, ?_⟩
    · intro hps
      simp only [crawlStep, hfe]
      rw [if_neg]
      rintro (h1 | h2)
      · exact h1 hps
      · exact FileMode.noConfusion h2
    · intro hps
      simp only [crawlStep, hfe]
      rw [if_pos (Or.inl hps)]
      simp only [fsWrite, pageText]
      rw [if_pos ⟨by trivial, hps⟩, ← writeParas_intercalate]
      rfl

/-- Witness for C4: appending a two-paragraph page to a file containing `X`
yields `X`, the page separator, and the two paragraphs joined by one
separator. -/
theorem C4_witness :
    (crawlStep ujW fetchW2 stateW).files =
      fsSet stateW.files "out.txt".data
        ("X".data ++ ("\n\n".data ++
          List.intercalate "\n\n".data ["P1".data, "P2".data])) := by
  have h := (C4_page_writer ujW fetchW2 stateW "b.html".data docW2 rfl rfl rfl).2.2
    (by decide)
  refine h.trans ?_
  rfl

/-- Writing a file then reading it back yields the written content. -/
theorem fsRead_fsSet : ∀ (fs : FileSys) (name v : Str),
    fsRead (fsSet fs name v) name = some v := by
  intro fs name v
  induction fs with
  | nil => simp [fsSet, fsRead, List.find?]
  | cons f rest ih =>
    by_cases h : f.1 = name
    · simp [fsSet, h, fsRead, List.find?]
    · simp only [fsSet, if_neg h]
      simp only [fsRead, List.find?] at ih ⊢
      rw [decide_eq_false h]
      exact ih

/-- A terminated crawl (no cursor) makes no further transition. -/
theorem crawlStep_done (uj : Str → Str → Str) (fetch : Str → Option NodeList)
    (s : CrawlState) (h : s.currentUrl = none) : crawlStep uj fetch s = s := by
  cases s with
  | mk cu of fp fs =>
    simp only at h
    subst h
    rfl

/-- A terminated crawl stays fixed for any number of iterations. -/
theorem crawlRun_done (uj : Str → Str → Str) (fetch : Str → Option NodeList) :
    ∀ (n : Nat) (s : CrawlState), s.currentUrl = none → crawlRun uj fetch s n = s := by
  intro n
  induction n with
  | zero => intro s _; rfl
  | succ n ih =>
    intro s h
    show crawlRun uj fetch (crawlStep uj fetch s) n = s
    rw [crawlStep_done uj fetch s h]
    exact ih s h

/-- After the first page, one loop iteration keeps the first-page flag, keeps
the output file name, and only ever appends to the output file. -/
theorem crawlStep_preserve (uj : Str → Str → Str) (fetch : Str → Option NodeList)
    (s : CrawlState) (h : s.firstPageProcessed = true) :
    (crawlStep uj fetch s).firstPageProcessed = true ∧
    (crawlStep uj fetch s).outputFilename = s.outputFilename ∧
    ∃ t, fileContent (crawlStep uj fetch s).files (s.outputFilename.getD []) =
      fileContent s.files (s.outputFilename.getD []) ++ t := by
  cases s with
  | mk cu of fp fs =>
    simp only at h
    subst h
    cases cu with
    | none => exact ⟨rfl, rfl, [], by simp [crawlStep]⟩
    | some url =>
      cases hfe : fetch url with
      | none => refine ⟨?_, ?_, [], ?_⟩ <;> simp [crawlStep, hfe]
      | some soup =>
        refine ⟨by simp [crawlStep, hfe], by simp [crawlStep, hfe], ?_⟩
        by_cases hps : extract_relevant_paragraphs soup = []
        · refine ⟨[], ?_⟩
          simp only [crawlStep, hfe]
          rw [if_neg (by rintro (h1 | h2); exacts [h1 hps, FileMode.noConfusion h2])]
          simp
        · refine ⟨pageText FileMode.a (extract_relevant_paragraphs soup), ?_⟩
          simp only [crawlStep, hfe]
          rw [if_pos (Or.inl hps)]
          simp only [fsWrite, fileContent]
          rw [fsRead_fsSet]
          rfl

/-- After the first page, any number of iterations keeps the output file name
and only ever appends to the output file. -/
theorem crawlRun_preserve (uj : Str → Str → Str) (fetch : Str → Option NodeList) :
    ∀ (n : Nat) (s : CrawlState), s.firstPageProcessed = true →
    (crawlRun uj fetch s n).firstPageProcessed = true ∧
    (crawlRun uj fetch s n).outputFilename = s.outputFilename ∧
    ∃ t, fileContent (crawlRun uj fetch s n).files (s.outputFilename.getD []) =
      fileContent s.files (s.outputFilename.getD []) ++ t := by
  intro n
  induction n with
  | zero => intro s h; exact ⟨h, rfl, [], by simp [crawlRun]⟩
  | succ n ih =>
    intro s h
    obtain ⟨hfp, hof, t, hct⟩ := crawlStep_preserve uj fetch s h
    obtain ⟨hfp', hof', t', hct'⟩ := ih (crawlStep uj fetch s) hfp
    refine ⟨hfp', hof'.trans hof, t ++ t', ?_⟩
    show fileContent (crawlRun uj fetch (crawlStep uj fetch s) n).files _ = _
    rw [hof] at hct'
    rw [hct', hct, List.append_assoc]

/-- C5: on the first successful fetch the output file identity is fixed to
the sanitized title plus `.txt` and the file is created in truncate mode with
the page's joined paragraphs (possibly empty), so a file exists as soon as any
page fetch succeeds; from then on the identity never changes and every write
only appends. -/
theorem C5_file_identity (uj : Str → Str → Str) (fetch : Str → Option NodeList)
    (s : CrawlState) (url : Str) (soup : NodeList) :
    (s.firstPageProcessed = false → s.currentUrl = some url → fetch url = some soup →
      (crawlStep uj fetch s).outputFilename =
        some (extract_title_for_filename soup ++ ".txt".data) ∧
      (crawlStep uj fetch s).firstPageProcessed = true ∧
      fsRead (crawlStep uj fetch s).files
        (extract_title_for_filename soup ++ ".txt".data) =
        some (writeParas (extract_relevant_paragraphs soup))) ∧
    (s.firstPageProcessed = true → ∀ n,
      (crawlRun uj fetch s n).outputFilename = s.outputFilename ∧
      ∃ t, fileContent (crawlRun uj fetch s n).files (s.outputFilename.getD []) =
        fileContent s.files (s.outputFilename.getD []) ++ t) := by
  constructor
  · cases s with
    | mk cu of fp fs =>
      intro hfp hcur hfe
      simp only at hfp hcur
      subst hfp
      subst hcur
      refine ⟨by simp [crawlStep, hfe], by simp [crawlStep, hfe], ?_⟩
      simp only [crawlStep, hfe]
      rw [if_pos (Or.inr trivial)]
      simp only [fsWrite, pageText]
      rw [if_neg (by rintro ⟨h1, _⟩; exact FileMode.noConfusion h1)]
      simp only [Option.getD_some, List.nil_append]
      rw [fsRead_fsSet]
  · intro h n
    obtain ⟨_, hof, t, hct⟩ := crawlRun_preserve uj fetch n s h
    exact ⟨hof, t, hct⟩

/-- Witness for C5: a first fetch of a page titled `Chapter␣␣My Title` with one
paragraph `Hello` fixes the file name `My_Title.txt` and creates it with
content `Hello`. -/
theorem C5_witness :
    (crawlStep ujW fetchW (initialState "a.html".data [])).outputFilename =
      some "My_Title.txt".data ∧
    fsRead (crawlStep ujW fetchW (initialState "a.html".data [])).files
      "My_Title.txt".data = some "Hello".data := by
  have h := (C5_file_identity ujW fetchW (initialState "a.html".data [])
    "a.html".data docW).1 rfl rfl (by decide)
  have hname : extract_title_for_filename docW ++ ".txt".data = "My_Title.txt".data := by
    decide
  refine ⟨h.1.trans (by rw [hname]), ?_⟩
  have h2 := h.2.2
  rw [hname] at h2
  exact h2.trans (by decide)

/-- C6: a failed fetch (timeout, connection error, non-2xx status) ends the
crawl immediately: the only state change is clearing the cursor, the file
system is untouched, and no later iteration does anything; when the failure
hits the initial URL, no output file name is ever chosen and the file system
stays exactly as it started. -/
theorem C6_network_failure (uj : Str → Str → Str) (fetch : Str → Option NodeList)
    (s : CrawlState) (url : Str) :
    s.currentUrl = some url → fetch url = none →
    (crawlStep uj fetch s = { s with currentUrl := none } ∧
      ∀ n, crawlRun uj fetch s (n + 1) = { s with currentUrl := none }) ∧
    (∀ fs, s = initialState url fs → ∀ n,
      (crawlRun uj fetch s (n + 1)).outputFilename = none ∧
      (crawlRun uj fetch s (n + 1)).files = fs) := by
  intro hcur hfe
  have hstep : crawlStep uj fetch s = { s with currentUrl := none } := by
    cases s with
    | mk cu of fp fs =>
      simp only at hcur
      subst hcur
      simp [crawlStep, hfe]
  have hrun : ∀ n, crawlRun uj fetch s (n + 1) = { s with currentUrl := none } := by
    intro n
    show crawlRun uj fetch (crawlStep uj fetch s) n = _
    rw [hstep]
    exact crawlRun_done uj fetch n _ rfl
  refine ⟨⟨hstep, hrun⟩, ?_⟩
  intro fs hinit n
  rw [hrun n, hinit]
  exact ⟨rfl, rfl⟩

/-- Witness for C6: an always-failing fetch leaves the initial empty file
system untouched and never picks an output file name. -/
theorem C6_witness :
    crawlStep ujW fetchFail (initialState "a.html".data []) =
      { initialState "a.html".data [] with currentUrl := none } ∧
    (crawlRun ujW fetchFail (initialState "a.html".data []) 3).outputFilename = none ∧
    (crawlRun ujW fetchFail (initialState "a.html".data []) 3).files = [] := by
  have h := C6_network_failure ujW fetchFail (initialState "a.html".data [])
    "a.html".data rfl rfl
  exact ⟨h.1.1, (h.2 [] rfl 2).1, (h.2 [] rfl 2).2⟩

/-- C10: if the first page created the output file empty and a later page has
at least one paragraph, the appended block starts with the two-newline page
separator — the separator depends only on being past the first page, not on
whether anything was previously written. -/
theorem C10_separator_after_empty_first_page (uj : Str → Str → Str)
    (fetch : Str → Option NodeList) (s : CrawlState) (url name : Str)
    (soup : NodeList) (p : Str) (ps : List Str) :
    s.firstPageProcessed = true →
    s.outputFilename = some name →
    fileContent s.files name = [] →
    s.currentUrl = some url →
    fetch url = some soup →
    extract_relevant_paragraphs soup = p :: ps →
    fileContent (crawlStep uj fetch s).files name =
      "\n\n".data ++ writeParas (p :: ps) := by
  cases s with
  | mk cu of fp fs =>
    intro hfp hof hempty hcur hfe hps
    simp only at hfp hof hcur hempty
    subst hfp
    subst hof
    subst hcur
    simp only [crawlStep, hfe]
    rw [if_pos (Or.inl (by rw [hps]; exact List.cons_ne_nil p ps))]
    simp only [fsWrite, pageText, fileContent, Option.getD_some]
    rw [if_pos ⟨by trivial, by rw [hps]; exact List.cons_ne_nil p ps⟩]
    rw [fsRead_fsSet]
    simp only [Option.getD_some]
    rw [hps]
    simp only [fileContent] at hempty
    rw [hempty]
    rfl

/-- Witness for C10: past an empty first page, appending the page `P1`,`P2`
makes the file content start with the two-newline separator. -/
theorem C10_witness :
    fileContent (crawlStep ujW fetchW2 stateW0).files "out.txt".data =
      "\n\n".data ++ writeParas ["P1".data, "P2".data] :=
  C10_separator_after_empty_first_page ujW fetchW2 stateW0 "b.html".data
    "out.txt".data docW2 "P1".data ["P2".data] rfl rfl (by decide) rfl rfl (by decide)

/-- `List.isPrefixOf` characterized by an append decomposition. -/
theorem isPrefixOf_append : ∀ (p s : Str), p.isPrefixOf s = true ↔ ∃ t, s = p ++ t := by
  intro p
  induction p with
  | nil => intro s; simp [List.isPrefixOf]
  | cons a as ih =>
    intro s
    cases s with
    | nil =>
      simp only [List.isPrefixOf]
      constructor
      · intro h
        cases h
      · rintro ⟨t, ht⟩
        cases ht
    | cons b bs =>
      simp only [List.isPrefixOf, Bool.and_eq_true, beq_iff_eq]
      rw [ih bs]
      constructor
      · rintro ⟨hab, t, ht⟩
        exact ⟨t, by rw [hab, ht]; rfl⟩
      · rintro ⟨t, ht⟩
        injection ht with h1 h2
        exact ⟨h1.symm, t, h2⟩

/-- When `splitFirst` finds `sep`, it returns the decomposition at the first
occurrence: the prefix is shortest among all decompositions. -/
theorem splitFirst_some (sep : Str) : ∀ (s a b : Str),
    splitFirst sep s = some (a, b) →
    s = a ++ sep ++ b ∧ ∀ a' b', s = a' ++ sep ++ b' → a.length ≤ a'.length := by
  intro s
  induction s with
  | nil =>
    intro a b h
    simp only [splitFirst] at h
    by_cases hpre : sep.isPrefixOf ([] : Str)
    · rw [if_pos hpre] at h
      injection h with h'
      injection h' with h1 h2
      obtain ⟨t, ht⟩ := (isPrefixOf_append sep []).mp hpre
      have hsep : sep = [] := by
        cases sep with
        | nil => rfl
        | cons x xs => cases ht
      subst h1
      subst h2
      subst hsep
      exact ⟨rfl, fun a' b' _ => Nat.zero_le _⟩
    · rw [if_neg hpre] at h
      cases h
  | cons c rest ih =>
    intro a b h
    by_cases hpre : sep.isPrefixOf (c :: rest)
    · rw [splitFirst, if_pos hpre] at h
      injection h with h'
      injection h' with h1 h2
      obtain ⟨t, ht⟩ := (isPrefixOf_append sep (c :: rest)).mp hpre
      subst h1
      constructor
      · rw [← h2, ht, List.nil_append, List.drop_left]
      · intro a' b' _
        exact Nat.zero_le _
    · rw [splitFirst, if_neg hpre] at h
      cases hs : splitFirst sep rest with
      | none => rw [hs] at h; cases h
      | some pr =>
        rw [hs] at h
        injection h with h'
        injection h' with h1 h2
        obtain ⟨hdec, hmin⟩ := ih pr.1 pr.2 (by rw [hs])
        subst h2
        subst h1
        constructor
        · rw [hdec]
          simp
        · intro a' b' hd
          cases a' with
          | nil =>
            exfalso
            apply hpre
            rw [(isPrefixOf_append sep (c :: rest))]
            exact ⟨b', by simpa using hd⟩
          | cons c' a'' =>
            injection hd with he1 he2
            simpa using Nat.succ_le_succ (hmin a'' b' he2)

/-- When `splitFirst` reports no occurrence, no decomposition exists. -/
theorem splitFirst_none (sep : Str) : ∀ s : Str,
    splitFirst sep s = none → ∀ a b, s ≠ a ++ sep ++ b := by
  intro s
  induction s with
  | nil =>
    intro h a b hd
    have hsep : sep.isPrefixOf ([] : Str) = true := by
      rw [isPrefixOf_append]
      refine ⟨b, ?_⟩
      cases a with
      | nil => simpa using hd
      | cons x xs => cases hd
    rw [splitFirst, if_pos hsep] at h
    cases h
  | cons c rest ih =>
    intro h a b hd
    by_cases hpre : sep.isPrefixOf (c :: rest)
    · rw [splitFirst, if_pos hpre] at h
      cases h
    · rw [splitFirst, if_neg hpre] at h
      cases a with
      | nil =>
        apply hpre
        rw [isPrefixOf_append]
        exact ⟨b, by simpa using hd⟩
      | cons c' a'' =>
        injection hd with he1 he2
        cases hs : splitFirst sep rest with
        | none => exact ih hs a'' b he2
        | some pr => rw [hs] at h; cases h

/-- The fallback token is a fixed point of the sanitizer. -/
theorem sanitize_untitled : sanitize_filename "untitled".data = "untitled".data := by
  decide

/-- C7: the title extractor returns `"untitled"` when the title span is
absent, when its text has no `\xa0\xa0` separator, or when the text after the
first separator occurrence is blank; otherwise it returns the sanitized
stripped text after the first occurrence.  The extractor is a total function,
so no input can make it raise. -/
theorem C7_title_extractor (soup : NodeList) :
    (findElemL isTitleSpan soup = none →
      extract_title_for_filename soup = "untitled".data) ∧
    (∀ el, findElemL isTitleSpan soup = some el →
      ((∀ a b, getText el ≠ a ++ titleSep ++ b) →
        extract_title_for_filename soup = "untitled".data) ∧
      (∀ a b, getText el = a ++ titleSep ++ b →
        (∀ a' b', getText el = a' ++ titleSep ++ b' → a.length ≤ a'.length) →
        (strip b = [] → extract_title_for_filename soup = "untitled".data) ∧
        (strip b ≠ [] →
          extract_title_for_filename soup = sanitize_filename (strip b)))) := by
  constructor
  · intro hf
    simp only [extract_title_for_filename, hf]
    exact sanitize_untitled
  · intro el hf
    constructor
    · intro hno
      cases hsp : splitFirst titleSep (getText el) with
      | none =>
        simp only [extract_title_for_filename, hf, hsp]
        exact sanitize_untitled
      | some pr =>
        exfalso
        obtain ⟨hdec, _⟩ := splitFirst_some titleSep (getText el) pr.1 pr.2 (by rw [hsp])
        exact hno pr.1 pr.2 hdec
    · intro a b hdec hmin
      cases hsp : splitFirst titleSep (getText el) with
      | none => exact absurd hdec (splitFirst_none titleSep (getText el) hsp a b)
      | some pr =>
        obtain ⟨hdec', hmin'⟩ :=
          splitFirst_some titleSep (getText el) pr.1 pr.2 (by rw [hsp])
        have hlen : pr.1.length = a.length :=
          Nat.le_antisymm (hmin' a b hdec) (hmin pr.1 pr.2 hdec')
        have happ : pr.1 ++ (titleSep ++ pr.2) = a ++ (titleSep ++ b) := by
          rw [← List.append_assoc, ← List.append_assoc, ← hdec', ← hdec]
        have hb : pr.2 = b := (List.append_inj (List.append_inj happ hlen).2 rfl).2
        constructor
        · intro hstrip
          simp only [extract_title_for_filename, hf, hsp]
          rw [hb, if_pos hstrip]
          exact sanitize_untitled
        · intro hstrip
          simp only [extract_title_for_filename, hf, hsp]
          rw [hb, if_neg hstrip]

/-- Witness for C7: the title text `Chapter\xa0\xa0My Title` produces the
sanitized file-name base `My_Title`. -/
theorem C7_witness : extract_title_for_filename docW = "My_Title".data := by
  have h := ((C7_title_extractor docW).2 (titleSpanNode "Chapter\xa0\xa0My Title")
    (by decide)).2 "Chapter".data "My Title".data (by decide)
    (splitFirst_some titleSep (getText (titleSpanNode "Chapter\xa0\xa0My Title"))
      "Chapter".data "My Title".data (by decide)).2
  exact (h.2 (by decide)).trans (by decide)

/-- Membership survives `dropWhile`. -/
theorem mem_dropWhile (p : Char → Bool) : ∀ (l : Str) (c : Char),
    c ∈ l.dropWhile p → c ∈ l := by
  intro l
  induction l with
  | nil => intro c h; exact h
  | cons x xs ih =>
    intro c h
    rw [List.dropWhile_cons] at h
    by_cases hx : p x
    · rw [if_pos hx] at h
      exact List.mem_cons_of_mem x (ih c h)
    · rw [if_neg hx] at h
      exact h

/-- Membership survives Python `strip`. -/
theorem mem_strip (s : Str) (c : Char) (h : c ∈ strip s) : c ∈ s := by
  simp only [strip, List.mem_reverse] at h
  have h1 := mem_dropWhile pyIsSpace _ c h
  rw [List.mem_reverse] at h1
  exact mem_dropWhile pyIsSpace s c h1

/-- `dropWhile` is the identity when no element satisfies the predicate. -/
theorem dropWhile_eq_self_of (p : Char → Bool) (l : Str)
    (h : ∀ c ∈ l, p c = false) : l.dropWhile p = l := by
  cases l with
  | nil => rfl
  | cons x xs =>
    rw [List.dropWhile_cons, if_neg]
    simp [h x (List.mem_cons_self x xs)]

/-- `strip` is the identity on whitespace-free strings. -/
theorem strip_eq_self_of (s : Str) (h : ∀ c ∈ s, pyIsSpace c = false) :
    strip s = s := by
  rw [strip, dropWhile_eq_self_of pyIsSpace s h, dropWhile_eq_self_of, List.reverse_reverse]
  intro c hc
  exact h c (by rwa [List.mem_reverse] at hc)

/-- Every character of the whitespace-collapsed string is non-whitespace. -/
theorem collapseAux_no_space : ∀ (s : Str) (b : Bool) (c : Char),
    c ∈ collapseAux b s → pyIsSpace c = false := by
  intro s
  induction s with
  | nil => intro b c h; cases h
  | cons x xs ih =>
    intro b c h
    simp only [collapseAux] at h
    by_cases hx : pyIsSpace x
    · rw [if_pos hx] at h
      rcases List.mem_append.mp h with h1 | h1
      · have : c = '_' := by
          cases b with
          | true => cases h1
          | false => simpa using h1
        rw [this]
        rfl
      · exact ih true c h1
    · rw [if_neg hx] at h
      rcases List.mem_cons.mp h with h1 | h1
      · subst h1
        simpa using hx
      · exact ih false c h1

/-- Collapsing whitespace is the identity on whitespace-free strings. -/
theorem collapseAux_eq_self_of : ∀ (s : Str), (∀ c ∈ s, pyIsSpace c = false) →
    ∀ b, collapseAux b s = s := by
  intro s
  induction s with
  | nil => intro _ b; rfl
  | cons x xs ih =>
    intro h b
    have hx : pyIsSpace x = false := h x (List.mem_cons_self x xs)
    simp only [collapseAux]
    rw [if_neg (by simp [hx])]
    rw [ih (fun c hc => h c (List.mem_cons_of_mem x hc)) false]

/-- `stripDots` is empty exactly when the string is all dots. -/
theorem stripDots_eq_nil_iff (r : Str) :
    stripDots r = [] ↔ ∀ c ∈ r, c = '.' := by
  constructor
  · intro h c hc
    simp only [stripDots, List.reverse_eq_nil_iff] at h
    have hall : ∀ x ∈ (r.dropWhile (· = '.')).reverse, x = '.' := by
      intro x hx
      simpa using List.dropWhile_eq_nil_iff.mp h x hx
    have hdrop : ∀ x ∈ r.dropWhile (· = '.'), x = '.' := by
      intro x hx
      exact hall x (by rwa [List.mem_reverse])
    have hsplit := List.takeWhile_append_dropWhile (p := (· = '.')) (l := r)
    rw [← hsplit] at hc
    rcases List.mem_append.mp hc with h1 | h1
    · simpa using List.mem_takeWhile_imp h1
    · exact hdrop c h1
  · intro h
    have h1 : r.dropWhile (· = '.') = [] :=
      List.dropWhile_eq_nil_iff.mpr (fun x hx => by simp [h x hx])
    simp [stripDots, h1]

/-- No forbidden character is whitespace. -/
theorem badChar_not_space (c : Char) (h : badChar c = true) : pyIsSpace c = false := by
  simp only [badChar, Bool.or_eq_true, decide_eq_true_eq] at h
  rcases h with ((((((((h | h) | h) | h) | h) | h) | h) | h) | h) <;> rw [h] <;> rfl

/-- C8: the sanitizer's output never exceeds 200 characters and never contains
a forbidden character; the empty string, strings of only forbidden characters,
and any input whose transformed form is empty, all dots, or case-insensitively
`untitled` all yield the literal fallback.  The sanitizer is a total function,
so no input can make it raise. -/
theorem C8_sanitizer (s : Str) :
    (sanitize_filename s).length ≤ 200 ∧
    (∀ c ∈ sanitize_filename s, badChar c = false) ∧
    (s = [] → sanitize_filename s = "untitled".data) ∧
    ((∀ c ∈ s, badChar c = true) → sanitize_filename s = "untitled".data) ∧
    ((((collapseWs (strip s)).filter (fun c => !badChar c)).take 200 = [] ∨
        (∀ c ∈ ((collapseWs (strip s)).filter (fun c => !badChar c)).take 200, c = '.') ∨
        lowerStr (((collapseWs (strip s)).filter (fun c => !badChar c)).take 200) =
          "untitled".data) →
      sanitize_filename s = "untitled".data) := by
  by_cases hs : s = []
  · have hval : sanitize_filename s = "untitled".data := by
      rw [hs]
      decide
    rw [hval]
    exact ⟨by decide, by decide, fun _ => rfl, fun _ => rfl, fun _ => rfl⟩
  · have hsan : sanitize_filename s =
        if ((collapseWs (strip s)).filter (fun c => !badChar c)).take 200 = [] ∨
            stripDots (((collapseWs (strip s)).filter (fun c => !badChar c)).take 200) = [] ∨
            (((collapseWs (strip s)).filter (fun c => !badChar c)).take 200).map
              Char.toLower = "untitled".data
        then "untitled".data
        else ((collapseWs (strip s)).filter (fun c => !badChar c)).take 200 := by
      simp only [sanitize_filename]
      rw [if_neg hs]
    by_cases hguard : ((collapseWs (strip s)).filter (fun c => !badChar c)).take 200 = [] ∨
        stripDots (((collapseWs (strip s)).filter (fun c => !badChar c)).take 200) = [] ∨
        (((collapseWs (strip s)).filter (fun c => !badChar c)).take 200).map
          Char.toLower = "untitled".data
    · have hval : sanitize_filename s = "untitled".data := by rw [hsan, if_pos hguard]
      rw [hval]
      exact ⟨by decide, by decide, fun _ => rfl, fun _ => rfl, fun _ => rfl⟩
    · have hval : sanitize_filename s =
          ((collapseWs (strip s)).filter (fun c => !badChar c)).take 200 := by
        rw [hsan, if_neg hguard]
      refine ⟨?_, ?_, fun h => absurd h hs, ?_, ?_⟩
      · rw [hval]
        exact List.length_take_le 200 _
      · intro c hc
        rw [hval] at hc
        have h1 := List.of_mem_filter (List.take_subset 200 _ hc)
        simpa using h1
      · intro hbad
        exfalso
        apply hguard
        refine Or.inl ?_
        have hstrip : ∀ c ∈ strip s, badChar c = true :=
          fun c hc => hbad c (mem_strip s c hc)
        have hnospace : ∀ c ∈ strip s, pyIsSpace c = false :=
          fun c hc => badChar_not_space c (hstrip c hc)
        rw [collapseWs, collapseAux_eq_self_of (strip s) hnospace false]
        rw [List.filter_eq_nil_iff.mpr (fun c hc => by simp [hstrip c hc])]
        rfl
      · rintro (h1 | h1 | h1)
        · exact absurd (Or.inl h1) hguard
        · exact absurd (Or.inr (Or.inl ((stripDots_eq_nil_iff _).mpr h1))) hguard
        · exact absurd (Or.inr (Or.inr h1)) hguard

/-- Witness for C8: a string of only forbidden characters sanitizes to the
fallback. -/
theorem C8_witness : sanitize_filename "///".data = "untitled".data :=
  (C8_sanitizer "///".data).2.2.2.1 (by decide)

/-- C9: the sanitizer is idempotent — its output is either the fallback
(itself a fixed point) or a nonempty string without whitespace or forbidden
characters, of length at most 200, not all dots and not case-insensitively
`untitled`, which every stage of the sanitizer leaves unchanged. -/
theorem C9_sanitize_idempotent (s : Str) :
    sanitize_filename (sanitize_filename s) = sanitize_filename s := by
  by_cases hs : s = []
  · have hval : sanitize_filename s = "untitled".data := by
      rw [hs]
      decide
    rw [hval]
    exact sanitize_untitled
  · have hsan : sanitize_filename s =
        if ((collapseWs (strip s)).filter (fun c => !badChar c)).take 200 = [] ∨
            stripDots (((collapseWs (strip s)).filter (fun c => !badChar c)).take 200) = [] ∨
            (((collapseWs (strip s)).filter (fun c => !badChar c)).take 200).map
              Char.toLower = "untitled".data
        then "untitled".data
        else ((collapseWs (strip s)).filter (fun c => !badChar c)).take 200 := by
      simp only [sanitize_filename]
      rw [if_neg hs]
    by_cases hguard : ((collapseWs (strip s)).filter (fun c => !badChar c)).take 200 = [] ∨
        stripDots (((collapseWs (strip s)).filter (fun c => !badChar c)).take 200) = [] ∨
        (((collapseWs (strip s)).filter (fun c => !badChar c)).take 200).map
          Char.toLower = "untitled".data
    · rw [hsan, if_pos hguard]
      exact sanitize_untitled
    · rw [hsan, if_neg hguard]
      have hrne : ((collapseWs (strip s)).filter (fun c => !badChar c)).take 200 ≠ [] :=
        fun h => hguard (Or.inl h)
      have hnospace : ∀ c ∈ ((collapseWs (strip s)).filter (fun c => !badChar c)).take 200,
          pyIsSpace c = false := by
        intro c hc
        have h1 := List.mem_of_mem_filter (List.take_subset 200 _ hc)
        exact collapseAux_no_space (strip s) false c h1
      have hfilter : ∀ c ∈ ((collapseWs (strip s)).filter (fun c => !badChar c)).take 200,
          (!badChar c) = true := by
        intro c hc
        have h1 : c ∈ (collapseWs (strip s)).filter (fun c => !badChar c) :=
          List.take_subset 200 _ hc
        exact (List.mem_filter.mp h1).2
      have hlen : (((collapseWs (strip s)).filter (fun c => !badChar c)).take 200).length
          ≤ 200 := List.length_take_le 200 _
      simp only [sanitize_filename]
      rw [if_neg hrne]
      rw [strip_eq_self_of _ hnospace]
      rw [collapseWs, collapseAux_eq_self_of _ hnospace false]
      rw [List.filter_eq_self.mpr hfilter]
      rw [List.take_of_length_le hlen]
      rw [if_neg hguard]
